import Mathlib

set_option maxRecDepth 8000

/-
  Verification of the event-driven trading-strategy backtester.

  Shallow embedding of the core of the repository:
    - events.py            : event value types
    - portfolio.py         : Position and Portfolio accounting
    - execution_handler.py : order-fill simulation
    - backtester.py        : engine dispatch loop
    - strategies/base.py and strategies/momentum.py : the reference strategy
    - data_handler.py      : the shape of the per-tick MarketEvent batches

  Modelling conventions:
    - Python floats are modelled as rationals (all arithmetic in the core is
      +, -, *, / on finitely many inputs, so exact rational arithmetic mirrors
      the intended real-number semantics of the spec).
    - Python exceptions are modelled with `Except PyError`; an operation that
      raises returns `.error`.  Partial mutations made before an exception are
      discarded by the model; all claims below concern either successful runs
      or the kind of error raised, never the post-exception state.
    - The shared event queue (a deque referenced by every component) is passed
      explicitly: queue-producing operations take the queue and return the
      extended queue.  Each component's `event_queue` field is `None` until the
      engine attaches the shared queue; this is modelled by a `wired : Bool`
      flag on the component (false = `event_queue is None`).
    - Python dicts (insertion ordered) are association lists; `defaultdict`
      access that creates a missing entry appends it at the end.
-/

/-- Python exception kinds raised by the embedded code.  `fuel` is a modelling
artifact marking exhaustion of the explicit recursion bound of the engine's
drain loop (the Python loop has no such bound). -/
inductive PyError where
  | runtimeError (msg : String)
  | valueError (msg : String)
  | keyError
  | indexError
  | zeroDivisionError
  | notImplementedError
  | fuel
deriving DecidableEq, Repr

/-- `OrderType` enum from events.py. -/
inductive OrderType where
  | market
  | limit
  | stop
deriving DecidableEq, Repr

/-- `MarketEvent` from events.py: symbol, datetime (modelled as a natural
number), open price (`openPrice`, since `open` is reserved), close price. -/
structure MarketEvent where
  symbol : String
  dt : Nat
  openPrice : ℚ
  close : ℚ
deriving DecidableEq, Repr

/-- `SignalEvent` from events.py. -/
structure SignalEvent where
  symbol : String
  strength : ℚ
deriving DecidableEq, Repr

/-- `OrderEvent` from events.py. -/
structure OrderEvent where
  symbol : String
  order_type : OrderType
  quantity : ℤ
deriving DecidableEq, Repr

/-- `FillEvent` from events.py. -/
structure FillEvent where
  symbol : String
  quantity : ℤ
  fill_cost : ℚ
  commission : ℚ
deriving DecidableEq, Repr

/-- The event union dispatched by the engine.  The Python `Event` base class is
open (any subclass); `other` stands for an event of an unrecognized subtype,
hitting the `case _` arm of `Backtester.run`. -/
inductive Event where
  | market (e : MarketEvent)
  | signal (e : SignalEvent)
  | order (e : OrderEvent)
  | fill (e : FillEvent)
  | other
deriving DecidableEq, Repr

/-- First-match lookup in an insertion-ordered association list (Python dict
read `m[key]`). -/
def dlookup {α : Type} : List (String × α) → String → Option α
  | [], _ => none
  | (key, v) :: rest, s => if key = s then some v else dlookup rest s

/-- Update the first entry with the given key, leaving the list unchanged when
the key is absent (used only where the Python dict provably has the key). -/
def dupdate {α : Type} : List (String × α) → String → (α → α) → List (String × α)
  | [], _, _ => []
  | (key, v) :: rest, s, f =>
      if key = s then (key, f v) :: rest else (key, v) :: dupdate rest s f

/-- `defaultdict` access-and-mutate: update the first entry with the given key,
creating `(key, f default)` at the end when the key is absent (Python dicts
append new keys in insertion order). -/
def dupdateD {α : Type} : List (String × α) → String → α → (α → α) → List (String × α)
  | [], s, d, f => [(s, f d)]
  | (key, v) :: rest, s, d, f =>
      if key = s then (key, f v) :: rest else (key, v) :: dupdateD rest s d f

/-- Append to a `collections.deque` with `maxlen = n`: when the deque is full
the element at the opposite end is discarded. -/
def pushBounded {α : Type} (n : Nat) (l : List α) (x : α) : List α :=
  let grown := l ++ [x]
  if n < grown.length then grown.drop (grown.length - n) else grown

/-- Python `int(x)` on a (rational) number: truncation toward zero. -/
def pyInt (x : ℚ) : ℤ :=
  if 0 ≤ x then ⌊x⌋ else ⌈x⌉

/-- Modelled from the spec: the spec's `round(sizing_constant × strength)`
order quantity.  The repository's Portfolio uses `int(...)`; this definition
follows the spec's word `round` (Python `round`: nearest integer, ties to
even) and exists only to be compared with the source's truncation. -/
def specRound (x : ℚ) : ℤ :=
  let f := ⌊x⌋
  let r := x - f
  if r < 1 / 2 then f
  else if 1 / 2 < r then f + 1
  else if Even f then f else f + 1

/-- `Position` from portfolio.py. -/
structure Position where
  quantity : ℚ := 0
  average_cost : ℚ := 0
  market_price : ℚ := 0
deriving DecidableEq, Repr

/-- `Position.on_fill_event`. -/
def Position.onFillEvent (p : Position) (e : FillEvent) : Position :=
  let newQuantity := p.quantity + (e.quantity : ℚ)
  if newQuantity = 0 then
    { p with quantity := 0, average_cost := 0 }
  else
    { p with
        average_cost := (p.average_cost * p.quantity + e.fill_cost) / newQuantity,
        quantity := newQuantity }

/-- `Position.on_market_event`. -/
def Position.onMarketEvent (p : Position) (e : MarketEvent) : Position :=
  { p with market_price := e.close }

/-- One per-symbol entry of `Portfolio._asset_history`: `asdict(position)` plus
the datetime. -/
structure AssetSnapshot where
  quantity : ℚ
  average_cost : ℚ
  market_price : ℚ
  dt : Nat
deriving DecidableEq, Repr

/-- One entry of `Portfolio._position_history`. -/
structure PortfolioSnapshot where
  dt : Nat
  cash : ℚ
  holding : ℚ
  equity : ℚ
deriving DecidableEq, Repr

/-- `Portfolio` from portfolio.py.  `wired` models whether `event_queue` has
been attached (false = `None`). -/
structure Portfolio where
  wired : Bool
  inital_cash : ℚ
  cash : ℚ
  current_position : List (String × Position)
  latest_market_event : Option MarketEvent
  position_history : List PortfolioSnapshot
  asset_history : List (String × List AssetSnapshot)
deriving DecidableEq, Repr

/-- `Portfolio.__init__`. -/
def mkPortfolio (cash : ℚ) : Portfolio :=
  { wired := false
    inital_cash := cash
    cash := cash
    current_position := []
    latest_market_event := none
    position_history := []
    asset_history := [] }

/-- `Portfolio.on_signal_event`: checks the queue dependency first, then
appends exactly one MARKET `OrderEvent` with quantity `int(10 * strength)`. -/
def Portfolio.onSignalEvent (pf : Portfolio) (queue : List Event) (e : SignalEvent) :
    Except PyError (List Event) :=
  if pf.wired = false then
    .error (.runtimeError "Portfolio: event_queue is not set")
  else
    .ok (queue ++ [Event.order ⟨e.symbol, OrderType.market, pyInt (10 * e.strength)⟩])

/-- Sum of `position.quantity * position.market_price` over the entries of the
position dict (the `holding` accumulated by `Portfolio.on_market_event`'s loop). -/
def holdingOf (m : List (String × Position)) : ℚ :=
  (m.map (fun sp => sp.2.quantity * sp.2.market_price)).sum

/-- The per-symbol asset snapshots appended by the snapshot loop of
`Portfolio.on_market_event` (one `asdict(position)` + datetime per symbol). -/
def appendAssetSnaps (ah : List (String × List AssetSnapshot))
    (ps : List (String × Position)) (d : Nat) : List (String × List AssetSnapshot) :=
  ps.foldl
    (fun acc sp =>
      dupdateD acc sp.1 []
        (fun l => l ++ [⟨sp.2.quantity, sp.2.average_cost, sp.2.market_price, d⟩]))
    ah

/-- `Portfolio.on_market_event`: re-marks the event's symbol (creating the
position through the `defaultdict` when absent), then appends one asset
snapshot per held symbol and one portfolio-level snapshot with
`equity = holding + cash`. -/
def Portfolio.onMarketEvent (pf : Portfolio) (e : MarketEvent) : Portfolio :=
  let pos := dupdateD pf.current_position e.symbol {} (fun p => p.onMarketEvent e)
  let holding := holdingOf pos
  { pf with
      latest_market_event := some e
      current_position := pos
      asset_history := appendAssetSnaps pf.asset_history pos e.dt
      position_history :=
        pf.position_history ++ [⟨e.dt, pf.cash, holding, holding + pf.cash⟩] }

/-- `Portfolio.on_fill_event`: applies the fill to the symbol's position and
debits `cash -= fill_cost` (commission unused). -/
def Portfolio.onFillEvent (pf : Portfolio) (e : FillEvent) : Portfolio :=
  { pf with
      current_position := dupdateD pf.current_position e.symbol {} (fun p => p.onFillEvent e)
      cash := pf.cash - e.fill_cost }


/-- `ExecutionHandler` from execution_handler.py: a rolling history of the
last 10 `MarketEvent`s and a list of pending (unfilled) `FillEvent`
skeletons.  `wired` models whether `event_queue` has been attached. -/
structure ExecutionHandler where
  wired : Bool
  market_history : List MarketEvent
  pending : List FillEvent
deriving DecidableEq, Repr

/-- `ExecutionHandler.__init__`. -/
def mkExecutionHandler : ExecutionHandler :=
  { wired := false, market_history := [], pending := [] }

/-- `ExecutionHandler.on_market_event`: appends the event to the bounded
history; if a pending fill exists, pops the most recently pushed one
(`list.pop()` is a LIFO pop), recomputes `fill_cost = quantity * event.open`,
and appends it to the queue. -/
def ExecutionHandler.onMarketEvent (h : ExecutionHandler) (queue : List Event)
    (e : MarketEvent) : Except PyError (ExecutionHandler × List Event) :=
  let hist := pushBounded 10 h.market_history e
  match h.pending.getLast? with
  | none => .ok ({ h with market_history := hist }, queue)
  | some f =>
      if h.wired = false then
        .error (.runtimeError "ExecutionHandler: event_queue is not set")
      else
        .ok ({ h with market_history := hist, pending := h.pending.dropLast },
             queue ++ [Event.fill { f with fill_cost := (f.quantity : ℚ) * e.openPrice }])

/-- `ExecutionHandler.execute_order`: checks the queue dependency, reads the
most recent market event (`market_history[-1]`, `IndexError` when empty) and
appends a pending fill skeleton with provisional
`fill_cost = quantity * most_recent_open` and zero commission. -/
def ExecutionHandler.executeOrder (h : ExecutionHandler) (queue : List Event)
    (e : OrderEvent) : Except PyError (ExecutionHandler × List Event) :=
  if h.wired = false then
    .error (.runtimeError "ExecutionHandler: event_queue is not set")
  else
    match h.market_history.getLast? with
    | none => .error .indexError
    | some m =>
        .ok ({ h with
                pending := h.pending ++
                  [⟨e.symbol, e.quantity, (e.quantity : ℚ) * m.openPrice, 0⟩] },
             queue)

/-- Python's `sorted` on a set of strings: ascending code-point
lexicographic order.  Only the ordering of iteration matters for the proofs;
`pyStrLe` is code-point lexicographic `≤` on the character data. -/
def strLtAux : List Char → List Char → Bool
  | [], [] => false
  | [], _ :: _ => true
  | _ :: _, [] => false
  | a :: as, b :: bs =>
      if Nat.blt a.val.toNat b.val.toNat then true
      else if Nat.blt b.val.toNat a.val.toNat then false
      else strLtAux as bs

/-- `≤` on strings as Python compares them (negation of strict reverse). -/
def pyStrLe (a b : String) : Bool := !(strLtAux b.data a.data)

/-- `sorted(self.tickers)`. -/
def sortStrings (l : List String) : List String :=
  l.insertionSort (fun a b => pyStrLe a b = true)

/-- `np.percentile(a, q)` with the default linear interpolation: sorts the
sample, takes position `(n - 1) * q / 100`, and interpolates linearly between
the neighbouring order statistics.  (numpy rejects an empty sample; the
embedding returns 0 there, a case unreachable from the strategy because a
strategy with no tickers never has `generate_signal` called.) -/
def npPercentile (l : List ℚ) (q : ℚ) : ℚ :=
  let s := l.insertionSort (fun a b : ℚ => a ≤ b)
  let pos : ℚ := ((l.length : ℚ) - 1) * q / 100
  let i : ℕ := (⌊pos⌋).toNat
  let lo := s.getD i 0
  let hi := s.getD (i + 1) lo
  lo + (pos - (i : ℚ)) * (hi - lo)

/-- `SimpleMomentumStrategy` state (strategies/momentum.py plus the
`tickers`/`event_queue` fields of the `Strategy` base class).  The Python
dicts keyed by ticker are insertion-ordered association lists. -/
structure MomentumStrategy where
  wired : Bool
  tickers : List String
  j : ℕ
  k : ℕ
  tickers_history : List (String × List MarketEvent)
  current_datetime : Option ℕ
  current_period : ℕ
  pending_signals : List (String × List SignalEvent)
deriving DecidableEq, Repr

/-- `SimpleMomentumStrategy.__init__`: per-ticker empty histories and
per-ticker pending-exit queues pre-filled with `k` placeholder
`SignalEvent("", 0)` entries (each deque bounded by `maxlen = k`). -/
def mkMomentum (tickers : List String) (j k : ℕ) : MomentumStrategy :=
  { wired := false
    tickers := tickers
    j := j
    k := k
    tickers_history := tickers.map (fun t => (t, []))
    current_datetime := none
    current_period := 0
    pending_signals := tickers.map (fun t => (t, List.replicate k ⟨"", 0⟩)) }

/-- The first loop of `generate_signal`'s formation step: for each ticker (in
sorted order) the simple return `history[-1].close / history[0].close - 1`.
`IndexError` on an empty history, `ZeroDivisionError` on a zero base close. -/
def formationReturns (st : MomentumStrategy) : List String → Except PyError (List (String × ℚ))
  | [] => .ok []
  | t :: rest =>
      match dlookup st.tickers_history t with
      | none => .error .keyError
      | some hist =>
          match hist.getLast?, hist.head? with
          | some last, some first =>
              if first.close = 0 then .error .zeroDivisionError
              else
                match formationReturns st rest with
                | .error er => .error er
                | .ok others => .ok ((t, last.close / first.close - 1) :: others)
          | _, _ => .error .indexError

/-- The entry loop of the formation step: per ticker in order, symbols at or
below the 10th-percentile return get a short entry (queue signal strength -1,
pending exit +1), symbols at or above the 90th percentile a long entry
(queue signal +1, pending exit -1); pending appends respect `maxlen = k`. -/
def entryLoop (kk : ℕ) (shortLeg longLeg : ℚ) :
    MomentumStrategy → List (String × ℚ) → MomentumStrategy × List Event
  | st, [] => (st, [])
  | st, (t, r) :: rest =>
      if r ≤ shortLeg then
        let st1 := { st with
          pending_signals := dupdate st.pending_signals t (fun q => pushBounded kk q ⟨t, 1⟩) }
        let next := entryLoop kk shortLeg longLeg st1 rest
        (next.1, Event.signal ⟨t, -1⟩ :: next.2)
      else if longLeg ≤ r then
        let st1 := { st with
          pending_signals := dupdate st.pending_signals t (fun q => pushBounded kk q ⟨t, -1⟩) }
        let next := entryLoop kk shortLeg longLeg st1 rest
        (next.1, Event.signal ⟨t, 1⟩ :: next.2)
      else
        entryLoop kk shortLeg longLeg st rest

/-- The whole formation step of `generate_signal` (runs when the period
counter has reached `j` on a new datetime): compute the per-ticker returns in
sorted ticker order, the 10th/90th percentile legs, then the entry loop. -/
def formation (st : MomentumStrategy) : Except PyError (MomentumStrategy × List Event) :=
  match formationReturns st (sortStrings st.tickers) with
  | .error er => .error er
  | .ok rets =>
      let returnsOnly := rets.map (fun tr => tr.2)
      let shortLeg := npPercentile returnsOnly 10
      let longLeg := npPercentile returnsOnly 90
      .ok (entryLoop st.k shortLeg longLeg st rets)

/-- Step 1 of `generate_signal`: `if self.pending_signals[event.symbol]:`
pop the front pending-exit signal and append it to the queue (dict access
raises `KeyError` for an untracked symbol). -/
def popPending (st : MomentumStrategy) (sym : String) :
    Except PyError (MomentumStrategy × List Event) :=
  match dlookup st.pending_signals sym with
  | none => .error .keyError
  | some [] => .ok (st, [])
  | some (sig :: rest) =>
      .ok ({ st with pending_signals := dupdate st.pending_signals sym (fun _ => rest) },
           [Event.signal sig])

/-- Step 2 of `generate_signal`: on a new datetime increment the period
counter and, once it has reached `j`, run the formation step. -/
def formationIfNew (st : MomentumStrategy) (d : ℕ) :
    Except PyError (MomentumStrategy × List Event) :=
  if st.current_datetime = some d then .ok (st, [])
  else
    let st2 := { st with current_period := st.current_period + 1 }
    if st2.j ≤ st2.current_period then formation st2 else .ok (st2, [])

/-- Step 3 of `generate_signal`: append the event to the symbol's bounded
history (dict access) and record the datetime. -/
def recordHistory (st : MomentumStrategy) (e : MarketEvent) :
    Except PyError MomentumStrategy :=
  match dlookup st.tickers_history e.symbol with
  | none => .error .keyError
  | some _ =>
      .ok { st with
              tickers_history :=
                dupdate st.tickers_history e.symbol (fun h => pushBounded st.j h e)
              current_datetime := some e.dt }

/-- `SimpleMomentumStrategy.generate_signal`: steps 1-3 in order.  Returns
the updated strategy state together with the list of events the call appends
to the shared queue, in append order: first the popped pending-exit signal
(when the symbol's pending deque is nonempty), then the formation entries. -/
def MomentumStrategy.generateSignal (st : MomentumStrategy) (e : MarketEvent) :
    Except PyError (MomentumStrategy × List Event) :=
  match popPending st e.symbol with
  | .error er => .error er
  | .ok (st1, out1) =>
      match formationIfNew st1 e.dt with
      | .error er => .error er
      | .ok (st2, out2) =>
          match recordHistory st2 e with
          | .error er => .error er
          | .ok st3 => .ok (st3, out1 ++ out2)

/-- `Strategy.on_market_event` (strategies/base.py) instantiated with the
momentum `generate_signal`, returning the events the call appends (the shared
queue is append-only here, so the caller concatenates).  Checks the queue
dependency first, then filters by the subscription set. -/
def MomentumStrategy.onMarketEventT (st : MomentumStrategy) (e : MarketEvent) :
    Except PyError (MomentumStrategy × List Event) :=
  if st.wired = false then
    .error (.runtimeError "RandomStrategy: event_queue not set")
  else if e.symbol ∈ st.tickers then
    st.generateSignal e
  else
    .ok (st, [])

/-- `Strategy.on_market_event` acting on the shared queue. -/
def MomentumStrategy.onMarketEvent (st : MomentumStrategy) (queue : List Event)
    (e : MarketEvent) : Except PyError (MomentumStrategy × List Event) :=
  match st.onMarketEventT e with
  | .error er => .error er
  | .ok (st2, out) => .ok (st2, queue ++ out)

/-- The full simulation state of `Backtester`: the four components plus the
shared FIFO event queue (`collections.deque`, appended at the back, popped at
the front). -/
structure SystemState where
  strat : MomentumStrategy
  execH : ExecutionHandler
  pf : Portfolio
  queue : List Event
deriving DecidableEq, Repr

/-- `Backtester.__init__` wiring: every component receives the shared queue
(modelled by setting each `wired` flag); the queue starts empty. -/
def mkSystem (strat : MomentumStrategy) (execH : ExecutionHandler) (pf : Portfolio) :
    SystemState :=
  { strat := { strat with wired := true }
    execH := { execH with wired := true }
    pf := { pf with wired := true }
    queue := [] }

/-- The dispatch `match` of `Backtester.run`: one dequeued event is routed by
kind.  A `MarketEvent` goes to the strategy, then the execution handler, then
the portfolio; a `SignalEvent` only to `Portfolio.on_signal_event`; an
`OrderEvent` only to `ExecutionHandler.execute_order`; a `FillEvent` only to
`Portfolio.on_fill_event`; anything else raises `ValueError`. -/
def dispatch (s : SystemState) (e : Event) : Except PyError SystemState :=
  match e with
  | .market m =>
      match s.strat.onMarketEvent s.queue m with
      | .error er => .error er
      | .ok (st2, q1) =>
          match s.execH.onMarketEvent q1 m with
          | .error er => .error er
          | .ok (ex2, q2) =>
              .ok { strat := st2, execH := ex2, pf := s.pf.onMarketEvent m, queue := q2 }
  | .signal sg =>
      match s.pf.onSignalEvent s.queue sg with
      | .error er => .error er
      | .ok q2 => .ok { s with queue := q2 }
  | .order o =>
      match s.execH.executeOrder s.queue o with
      | .error er => .error er
      | .ok (ex2, q2) => .ok { s with execH := ex2, queue := q2 }
  | .fill f => .ok { s with pf := s.pf.onFillEvent f }
  | .other => .error (.valueError "Unkown event type")

/-- The inner `while self.event_queue:` drain loop of `Backtester.run`,
instrumented with the list of dequeued events in dispatch order.  The
explicit bound only replaces Python's unbounded loop; concrete runs use a
bound large enough never to be hit. -/
def drainT : ℕ → SystemState → List Event → Except PyError (SystemState × List Event)
  | _, s@{ queue := [], .. }, acc => .ok (s, acc)
  | 0, _, _ => .error .fuel
  | n + 1, s, acc =>
      match s.queue with
      | [] => .ok (s, acc)
      | e :: rest =>
          match dispatch { s with queue := rest } e with
          | .error er => .error er
          | .ok s2 => drainT n s2 (acc ++ [e])

/-- One tick of `Backtester.run`: the data handler extends the queue with the
tick's batch of `MarketEvent`s, then the queue is drained to empty.  Returns
the per-tick dispatch traces. -/
def runBatchesT (fuel : ℕ) :
    SystemState → List (List Event) → Except PyError (SystemState × List (List Event))
  | s, [] => .ok (s, [])
  | s, b :: rest =>
      match drainT fuel { s with queue := s.queue ++ b } [] with
      | .error er => .error er
      | .ok (s1, tr) =>
          match runBatchesT fuel s1 rest with
          | .error er => .error er
          | .ok (s2, trs) => .ok (s2, tr :: trs)

/-- The batch of `MarketEvent`s `DataHandler.__next__` appends for one
timestamp: one event per configured ticker, in ticker-list order, all sharing
the timestamp; per ticker an open and a close price. -/
def batchEvents (tickers : List String) (d : ℕ) (po pc : String → ℚ) : List MarketEvent :=
  tickers.map (fun t => ⟨t, d, po t, pc t⟩)

/-- The same batch, as queue entries. -/
def batchQueueEvents (tickers : List String) (d : ℕ) (po pc : String → ℚ) : List Event :=
  (batchEvents tickers d po pc).map Event.market

/-- Strategy-only run, one `on_market_event` call per event of a batch,
collecting the events each call appends to the shared queue (used for the
claims about the strategy's own behaviour). -/
def stratCalls (st : MomentumStrategy) :
    List MarketEvent → Except PyError (MomentumStrategy × List (List Event))
  | [] => .ok (st, [])
  | e :: rest =>
      match st.onMarketEventT e with
      | .error er => .error er
      | .ok (st1, out) =>
          match stratCalls st1 rest with
          | .error er => .error er
          | .ok (st2, outs) => .ok (st2, out :: outs)

/-- Strategy-only run over data-handler ticks: per tick `(d, po, pc)` the
strategy sees the tick's batch, one call per ticker in feed order.  Collects
the per-tick, per-call append traces. -/
def stratRun (tickers : List String) (st : MomentumStrategy) :
    List (ℕ × (String → ℚ) × (String → ℚ)) →
      Except PyError (MomentumStrategy × List (List (List Event)))
  | [] => .ok (st, [])
  | (d, po, pc) :: rest =>
      match stratCalls st (batchEvents tickers d po pc) with
      | .error er => .error er
      | .ok (st1, outs) =>
          match stratRun tickers st1 rest with
          | .error er => .error er
          | .ok (st2, rest2) => .ok (st2, outs :: rest2)

/-- The execution handler's operation alphabet for the execution-lag claim:
the handler receives `execute_order` and `on_market_event` calls. -/
inductive ExOp where
  | order (o : OrderEvent)
  | market (m : MarketEvent)
deriving DecidableEq, Repr

/-- Execution-handler state for the execution-lag claim, with each pending
fill skeleton tagged (ghost data) by the position of the `execute_order` call
that created it; tags never influence behaviour. -/
structure EHT where
  hist : List MarketEvent
  pending : List (ℕ × FillEvent)
deriving DecidableEq, Repr

/-- An emitted fill, tagged with the position `oi` of the originating
`execute_order` call and the position `mi` of the `on_market_event` call that
resolved and emitted it. -/
structure Emit where
  oi : ℕ
  mi : ℕ
  ev : FillEvent
deriving DecidableEq, Repr

/-- Run a queue-attached execution handler over a list of operations starting
at position `i0`, mirroring `execute_order` / `on_market_event` exactly
(bounded history, provisional cost from `market_history[-1]`, LIFO pop of the
pending list, cost recomputed from the resolving event's open), and collect
the emitted fills in emission order with their ghost tags. -/
def ehRun : EHT → ℕ → List ExOp → Except PyError (EHT × List Emit)
  | s, _, [] => .ok (s, [])
  | s, i, .market m :: rest =>
      let hist := pushBounded 10 s.hist m
      match s.pending.getLast? with
      | none =>
          match ehRun { s with hist := hist } (i + 1) rest with
          | .error er => .error er
          | .ok (s2, em) => .ok (s2, em)
      | some (oi, f) =>
          match ehRun { hist := hist, pending := s.pending.dropLast } (i + 1) rest with
          | .error er => .error er
          | .ok (s2, em) =>
              .ok (s2, ⟨oi, i, { f with fill_cost := (f.quantity : ℚ) * m.openPrice }⟩ :: em)
  | s, i, .order o :: rest =>
      match s.hist.getLast? with
      | none => .error .indexError
      | some last =>
          match ehRun
              { s with pending :=
                  s.pending ++ [(i, ⟨o.symbol, o.quantity, (o.quantity : ℚ) * last.openPrice, 0⟩)] }
              (i + 1) rest with
          | .error er => .error er
          | .ok (s2, em) => .ok (s2, em)

/-- Position of the first `market` operation strictly after position `i`. -/
def firstMarketAfter (ops : List ExOp) (i : ℕ) : Option ℕ :=
  ((ops.drop (i + 1)).findIdx?
      (fun op => match op with | .market _ => true | .order _ => false)).map (· + i + 1)

/-- The fill price of a `FillEvent` in the sense of the spec's average-cost
bound: `fill_cost / quantity`. -/
def fillPrice (f : FillEvent) : ℚ := f.fill_cost / (f.quantity : ℚ)

/-- Fold a sequence of fills through `Position.on_fill_event`. -/
def applyFills (p : Position) (fs : List FillEvent) : Position :=
  fs.foldl Position.onFillEvent p

/-- Whether a result is a raised `RuntimeError`. -/
def resultRuntimeError {α : Type} : Except PyError α → Bool
  | .error (.runtimeError _) => true
  | _ => false

/-- The two fills of the average-cost counterexample: buy 1 unit at price 10,
then sell 2 units at price 20 (fill cost -40), flipping the position short. -/
def c5fills : List FillEvent := [⟨"X", 1, 10, 0⟩, ⟨"X", -2, -40, 0⟩]

/-- Two fills on one side for the average-cost witness: buy 2 at 10, buy 1
at 15. -/
def c5okFills : List FillEvent := [⟨"X", 2, 20, 0⟩, ⟨"X", 1, 15, 0⟩]

/-- Operation sequence for the execution-lag counterexample: one market event
establishing a most-recent price, then two orders submitted back to back
(both pending together), then two market events. -/
def c2ops : List ExOp :=
  [ .market ⟨"X", 1, 50, 50⟩,
    .order ⟨"X", OrderType.market, 5⟩,
    .order ⟨"Y", OrderType.market, 7⟩,
    .market ⟨"X", 2, 100, 100⟩,
    .market ⟨"Y", 3, 200, 200⟩ ]

/-- The two tickers of the momentum scenario. -/
def tickersAB : List String := ["A", "B"]

/-- The scenario system: momentum strategy with formation window 2 and
holding window 1 on the two tickers, a fresh execution handler, and a
portfolio with the default initial cash. -/
def sysAB : SystemState :=
  mkSystem (mkMomentum tickersAB 2 1) mkExecutionHandler (mkPortfolio 100000)

/-- Scenario tick 1: both symbols open and close at 10. -/
def c4b1 : List Event := batchQueueEvents tickersAB 1 (fun _ => 10) (fun _ => 10)

/-- Scenario tick 2: A opens 11 and closes 12 (2-tick close return +0.20),
B opens 10 and closes 9 (return -0.10). -/
def c4b2 : List Event :=
  batchQueueEvents tickersAB 2
    (fun t => if t = "A" then 11 else 10)
    (fun t => if t = "A" then 12 else 9)

/-- The scenario run over the first two ticks. -/
def c4run : Except PyError (SystemState × List (List Event)) :=
  runBatchesT 100 sysAB [c4b1, c4b2]

/-- The events dispatched during tick `i` of a run (in dispatch order). -/
def runTraceOfTick (r : Except PyError (SystemState × List (List Event))) (i : ℕ) :
    Option (List Event) :=
  match r with
  | .error _ => none
  | .ok (_, trs) => trs.get? i

/-- The `SignalEvent`s dispatched during tick `i` of a run, in order. -/
def runSignalsOfTick (r : Except PyError (SystemState × List (List Event))) (i : ℕ) :
    Option (List Event) :=
  (runTraceOfTick r i).map
    (fun tr => tr.filter (fun e => match e with | .signal _ => true | _ => false))

/-- A single one-tick feed (both symbols at 10) for the placeholder-signal
witness. -/
def c9wBatches : List (ℕ × (String → ℚ) × (String → ℚ)) :=
  [(1, fun _ => (10 : ℚ), fun _ => (10 : ℚ))]

deriving instance DecidableEq for Except

/-- Concrete system for the dispatch witness: empty-subscription strategy,
fresh handler and portfolio. -/
def dispW : SystemState := mkSystem (mkMomentum [] 0 0) mkExecutionHandler (mkPortfolio 0)

/-- Concrete market event for the dispatch witness. -/
def dispM : MarketEvent := ⟨"A", 1, 5, 6⟩

/-- Strategy state of `dispW` after the witness dispatch (unchanged). -/
def dispStrat : MomentumStrategy := { mkMomentum [] 0 0 with wired := true }

/-- Execution-handler state of `dispW` after the witness dispatch. -/
def dispExec : ExecutionHandler := { wired := true, market_history := [dispM], pending := [] }

/-- C1: for every portfolio state and market event, the portfolio-level
snapshot appended by `Portfolio.on_market_event` records an equity equal to
the portfolio's cash plus the sum over all positions of
`quantity * market_price`. -/
theorem portfolio_equity_invariant (pf : Portfolio) (e : MarketEvent) :
    ∃ snap : PortfolioSnapshot,
      ((pf.onMarketEvent e).position_history).getLast? = some snap ∧
      snap.equity = (pf.onMarketEvent e).cash +
        (((pf.onMarketEvent e).current_position).map
          (fun sp => sp.2.quantity * sp.2.market_price)).sum := by
  refine ⟨_, List.getLast?_concat _, ?_⟩
  simp [Portfolio.onMarketEvent, holdingOf, add_comm]

/-- C6: `Position.on_fill_event` sets `average_cost` to
`(average_cost * quantity_before + fill_cost) / quantity_after` when the
resulting quantity is nonzero, and resets both `quantity` and `average_cost`
to 0 when the resulting quantity is exactly 0. -/
theorem position_fill_update (p : Position) (e : FillEvent) :
    (p.quantity + (e.quantity : ℚ) ≠ 0 →
        (p.onFillEvent e).quantity = p.quantity + (e.quantity : ℚ) ∧
        (p.onFillEvent e).average_cost =
          (p.average_cost * p.quantity + e.fill_cost) / (p.quantity + (e.quantity : ℚ)))
    ∧ (p.quantity + (e.quantity : ℚ) = 0 →
        (p.onFillEvent e).quantity = 0 ∧ (p.onFillEvent e).average_cost = 0) := by
  unfold Position.onFillEvent
  constructor <;> intro h <;> simp [h]

/-- Witness for C6: buying 2 units at total cost 30 from a flat position
leaves quantity 2 at average cost 15. -/
theorem position_fill_update_witness :
    (Position.onFillEvent {} ⟨"X", 2, 30, 0⟩).quantity = 2 ∧
    (Position.onFillEvent {} ⟨"X", 2, 30, 0⟩).average_cost = 15 := by
  have h := (position_fill_update {} ⟨"X", 2, 30, 0⟩).1 (by with_unfolding_all decide)
  refine ⟨?_, ?_⟩
  · rw [h.1]; with_unfolding_all decide
  · rw [h.2]; with_unfolding_all decide

/-- C3 counterexample: for a signal of strength 0.15 the emitted order has
quantity `int(10 * 0.15) = int(1.5) = 1`, whereas the claimed
`round(10 * 0.15) = round(1.5) = 2`; the claim is false at this input. -/
theorem order_quantity_counterexample :
    Portfolio.onSignalEvent { mkPortfolio 100000 with wired := true } [] ⟨"X", 3 / 20⟩ =
      .ok [Event.order ⟨"X", OrderType.market, 1⟩] ∧
    specRound (10 * (3 / 20)) = 2 ∧ (1 : ℤ) ≠ 2 := by
  with_unfolding_all decide

/-- C3 amended: with the queue attached, `Portfolio.on_signal_event` appends
exactly one MARKET order for the signal's symbol with quantity
`int(10 * strength)` — truncation toward zero, not rounding. -/
theorem order_quantity_amended (pf : Portfolio) (q : List Event) (e : SignalEvent)
    (hw : pf.wired = true) :
    pf.onSignalEvent q e =
      .ok (q ++ [Event.order ⟨e.symbol, OrderType.market, pyInt (10 * e.strength)⟩]) := by
  simp [Portfolio.onSignalEvent, hw]

/-- Witness for the amended C3 at strength 1: one order of quantity 10. -/
theorem order_quantity_amended_witness :
    Portfolio.onSignalEvent { mkPortfolio 100000 with wired := true } [] ⟨"Y", 1⟩ =
      .ok [Event.order ⟨"Y", OrderType.market, 10⟩] := by
  have h := order_quantity_amended { mkPortfolio 100000 with wired := true } [] ⟨"Y", 1⟩ rfl
  rw [h]
  with_unfolding_all decide

/-- C10: with the queue attached, `ExecutionHandler.execute_order` raises the
uncaught `IndexError` (from reading `market_history[-1]`) exactly when no
`MarketEvent` has been observed yet; a preceding market event is required for
the call to complete. -/
theorem execute_order_requires_market (h : ExecutionHandler) (q : List Event)
    (o : OrderEvent) (hw : h.wired = true) :
    h.executeOrder q o = .error .indexError ↔ h.market_history = [] := by
  unfold ExecutionHandler.executeOrder
  rw [hw]
  rcases hg : h.market_history.getLast? with _ | m
  · simp [List.getLast?_eq_none_iff.mp hg]
  · have hne : h.market_history ≠ [] := by
      intro h0
      rw [h0] at hg
      simp at hg
    simp [hne]

/-- Witness for C10: a wired handler with empty history raises IndexError. -/
theorem execute_order_requires_market_witness :
    ExecutionHandler.executeOrder { mkExecutionHandler with wired := true } []
      ⟨"X", OrderType.market, 5⟩ = .error .indexError :=
  (execute_order_requires_market { mkExecutionHandler with wired := true } []
    ⟨"X", OrderType.market, 5⟩ rfl).mpr rfl

/-- C7: the engine's dispatch routes a `MarketEvent` to the strategy, then
the execution handler (seeing the queue as extended by the strategy), then
the portfolio, in that order; a `SignalEvent` only to
`Portfolio.on_signal_event`; an `OrderEvent` only to
`ExecutionHandler.execute_order`; a `FillEvent` only to
`Portfolio.on_fill_event`; and an event of unrecognized kind raises a fatal
`ValueError` instead of being ignored. -/
theorem engine_dispatch_routing (s : SystemState) :
    (∀ m st2 q1 ex2 q2,
        s.strat.onMarketEvent s.queue m = .ok (st2, q1) →
        s.execH.onMarketEvent q1 m = .ok (ex2, q2) →
        dispatch s (.market m) =
          .ok { strat := st2, execH := ex2, pf := s.pf.onMarketEvent m, queue := q2 })
    ∧ (∀ sg, dispatch s (.signal sg) =
        match s.pf.onSignalEvent s.queue sg with
        | .error er => .error er
        | .ok q2 => .ok { s with queue := q2 })
    ∧ (∀ o, dispatch s (.order o) =
        match s.execH.executeOrder s.queue o with
        | .error er => .error er
        | .ok (ex2, q2) => .ok { s with execH := ex2, queue := q2 })
    ∧ (∀ f, dispatch s (.fill f) = .ok { s with pf := s.pf.onFillEvent f })
    ∧ dispatch s .other = .error (.valueError "Unkown event type") := by
  refine ⟨?_, fun sg => rfl, fun o => rfl, fun f => rfl, rfl⟩
  intro m st2 q1 ex2 q2 h1 h2
  simp [dispatch, h1, h2]

/-- Witness for C7: dispatching a market event through a concrete system
applies the three market handlers in order. -/
theorem engine_dispatch_routing_witness :
    dispatch dispW (.market dispM) =
      .ok { strat := dispStrat, execH := dispExec,
            pf := dispW.pf.onMarketEvent dispM, queue := [] } :=
  (engine_dispatch_routing dispW).1 dispM dispStrat [] dispExec []
    (by with_unfolding_all decide) (by with_unfolding_all decide)

/-- C5 counterexample: buy 1 at price 10, then sell 2 at price 20.  Both
observed fill prices lie in [10, 20], the resulting quantity is -1 ≠ 0, but
the average cost is 30, outside [min fill price, max fill price]; the claimed
bound is false for sign-flipping fill sequences. -/
theorem average_cost_bound_counterexample :
    c5fills.map fillPrice = [10, 20] ∧
    (applyFills {} c5fills).quantity = -1 ∧
    (applyFills {} c5fills).average_cost = 30 ∧
    ¬((10 : ℚ) ≤ 30 ∧ (30 : ℚ) ≤ 20) := by
  with_unfolding_all decide

/-- One step of the amended average-cost bound: a same-side (positive) fill
with price in [lo, hi] keeps a positive-quantity position's average cost in
[lo, hi]. -/
theorem averageCost_step (p : Position) (f : FillEvent) (lo hi : ℚ)
    (hp : 0 < p.quantity) (hl : lo ≤ p.average_cost) (hh : p.average_cost ≤ hi)
    (hf : 0 < (f.quantity : ℚ))
    (hfl : lo ≤ fillPrice f) (hfh : fillPrice f ≤ hi) :
    0 < (p.onFillEvent f).quantity ∧
    lo ≤ (p.onFillEvent f).average_cost ∧ (p.onFillEvent f).average_cost ≤ hi := by
  have hsum : 0 < p.quantity + (f.quantity : ℚ) := by linarith
  have hcost : f.fill_cost = fillPrice f * (f.quantity : ℚ) := by
    rw [fillPrice]
    field_simp
  unfold Position.onFillEvent
  rw [if_neg (by linarith)]
  refine ⟨hsum, ?_, ?_⟩
  · rw [le_div_iff₀ hsum, hcost]
    nlinarith [mul_le_mul_of_nonneg_right hl hp.le, mul_le_mul_of_nonneg_right hfl hf.le]
  · rw [div_le_iff₀ hsum, hcost]
    nlinarith [mul_le_mul_of_nonneg_right hh hp.le, mul_le_mul_of_nonneg_right hfh hf.le]

/-- The amended bound holds from any position already inside the bound, for
same-side fills. -/
theorem averageCost_inv (fs : List FillEvent) (p : Position) (lo hi : ℚ)
    (hp : 0 < p.quantity) (hl : lo ≤ p.average_cost) (hh : p.average_cost ≤ hi)
    (hq : ∀ f ∈ fs, 0 < (f.quantity : ℚ))
    (hlo : ∀ f ∈ fs, lo ≤ fillPrice f)
    (hhi : ∀ f ∈ fs, fillPrice f ≤ hi) :
    0 < (applyFills p fs).quantity ∧
    lo ≤ (applyFills p fs).average_cost ∧ (applyFills p fs).average_cost ≤ hi := by
  induction fs generalizing p with
  | nil => exact ⟨hp, hl, hh⟩
  | cons f rest ih =>
      have step := averageCost_step p f lo hi hp hl hh
        (hq f (by simp)) (hlo f (by simp)) (hhi f (by simp))
      have : applyFills p (f :: rest) = applyFills (p.onFillEvent f) rest := rfl
      rw [this]
      exact ih (p.onFillEvent f) step.1 step.2.1 step.2.2
        (fun g hg => hq g (by simp [hg]))
        (fun g hg => hlo g (by simp [hg]))
        (fun g hg => hhi g (by simp [hg]))

/-- The first fill from a flat position lands exactly at its fill price. -/
theorem firstFill_from_flat (f : FillEvent) (hf : 0 < (f.quantity : ℚ)) :
    Position.onFillEvent {} f =
      { quantity := (f.quantity : ℚ), average_cost := fillPrice f, market_price := 0 } := by
  have h1 : ({} : Position).quantity = 0 := rfl
  have h2 : ({} : Position).average_cost = 0 := rfl
  unfold Position.onFillEvent fillPrice
  rw [h1, h2, zero_add, if_neg hf.ne']
  simp

/-- C5 amended: the claimed bound is restricted to fill sequences on one side
(every fill quantity positive; the counterexample's sign-flipping fill is
excluded).  For such sequences, whenever the quantity is nonzero the average
cost lies within any interval [lo, hi] containing all observed fill prices —
in particular within [min fill price, max fill price]. -/
theorem average_cost_bound_amended (fs : List FillEvent) (lo hi : ℚ)
    (hq : ∀ f ∈ fs, 0 < (f.quantity : ℚ))
    (hlo : ∀ f ∈ fs, lo ≤ fillPrice f)
    (hhi : ∀ f ∈ fs, fillPrice f ≤ hi)
    (hne : fs ≠ []) :
    (applyFills {} fs).quantity ≠ 0 ∧
    lo ≤ (applyFills {} fs).average_cost ∧ (applyFills {} fs).average_cost ≤ hi := by
  cases fs with
  | nil => exact absurd rfl hne
  | cons f rest =>
      have hf : 0 < (f.quantity : ℚ) := hq f (by simp)
      have h0 := firstFill_from_flat f hf
      have happ : applyFills {} (f :: rest) = applyFills (Position.onFillEvent {} f) rest := rfl
      rw [happ, h0]
      have main := averageCost_inv rest
        { quantity := (f.quantity : ℚ), average_cost := fillPrice f, market_price := 0 }
        lo hi (by simpa using hf) (by simpa using hlo f (by simp))
        (by simpa using hhi f (by simp))
        (fun g hg => hq g (by simp [hg]))
        (fun g hg => hlo g (by simp [hg]))
        (fun g hg => hhi g (by simp [hg]))
      exact ⟨ne_of_gt main.1, main.2.1, main.2.2⟩

/-- Witness for the amended C5: buy 2 at price 10, then 1 at price 15; the
average cost stays within [10, 15]. -/
theorem average_cost_bound_amended_witness :
    (applyFills {} c5okFills).quantity ≠ 0 ∧
    (10 : ℚ) ≤ (applyFills {} c5okFills).average_cost ∧
    (applyFills {} c5okFills).average_cost ≤ 15 :=
  average_cost_bound_amended c5okFills 10 15
    (by with_unfolding_all decide)
    (by with_unfolding_all decide)
    (by with_unfolding_all decide)
    (by with_unfolding_all decide)

/-- Errors of the formation returns loop are dict/indexing/zero-division
errors, never `RuntimeError`. -/
theorem formationReturns_error_kind (st : MomentumStrategy) (l : List String) (er : PyError)
    (h : formationReturns st l = .error er) :
    er = .keyError ∨ er = .indexError ∨ er = .zeroDivisionError := by
  induction l with
  | nil => simp [formationReturns] at h
  | cons t rest ih =>
      unfold formationReturns at h
      split at h
      · injection h with h2
        exact Or.inl h2.symm
      · split at h
        · split at h
          · injection h with h2
            exact Or.inr (Or.inr h2.symm)
          · split at h
            · injection h with h2
              subst h2
              exact ih (by assumption)
            · exact absurd h (by simp)
        · injection h with h2
          exact Or.inr (Or.inl h2.symm)

/-- Errors of the whole formation step are never `RuntimeError`. -/
theorem formation_error_kind (st : MomentumStrategy) (er : PyError)
    (h : formation st = .error er) :
    er = .keyError ∨ er = .indexError ∨ er = .zeroDivisionError := by
  unfold formation at h
  rcases hfr : formationReturns st (sortStrings st.tickers) with er2 | rets
  · rw [hfr] at h
    injection h with h2
    subst h2
    exact formationReturns_error_kind st _ _ hfr
  · rw [hfr] at h
    exact absurd h (by simp)

/-- `generate_signal` can raise `KeyError`, `IndexError` or
`ZeroDivisionError`, but never `RuntimeError`. -/
theorem generateSignal_no_runtime (st : MomentumStrategy) (e : MarketEvent) (msg : String) :
    st.generateSignal e ≠ .error (.runtimeError msg) := by
  intro h
  unfold MomentumStrategy.generateSignal at h
  rcases hp : popPending st e.symbol with er1 | p1
  · rw [hp] at h
    injection h with h2
    unfold popPending at hp
    rcases hd : dlookup st.pending_signals e.symbol with _ | pend
    · rw [hd] at hp
      injection hp with hp2
      rw [← hp2] at h2
      exact absurd h2 (by simp)
    · rw [hd] at hp
      cases pend <;> exact absurd hp (by simp)
  · obtain ⟨p11, p12⟩ := p1
    rw [hp] at h
    dsimp only at h
    rcases hf : formationIfNew p11 e.dt with er2 | p2
    · rw [hf] at h
      injection h with h2
      subst h2
      unfold formationIfNew at hf
      split at hf
      · exact absurd hf (by simp)
      · dsimp only at hf
        split at hf
        · rcases formation_error_kind _ _ hf with h3 | h3 | h3 <;> simp at h3
        · exact absurd hf (by simp)
    · obtain ⟨p21, p22⟩ := p2
      rw [hf] at h
      dsimp only at h
      rcases hr : recordHistory p21 e with er3 | st3
      · rw [hr] at h
        injection h with h2
        subst h2
        unfold recordHistory at hr
        rcases hd : dlookup p21.tickers_history e.symbol with _ | hist <;> rw [hd] at hr
        · injection hr with hr2
          exact absurd hr2.symm (by simp)
        · exact absurd hr (by simp)
      · rw [hr] at h
        exact absurd h (by simp)

/-- C8: each queue-producing operation — `Portfolio.on_signal_event`,
`ExecutionHandler.execute_order`, and the strategy's `on_market_event` for a
subscribed symbol — raises `RuntimeError` exactly when its event queue was
never attached; the check precedes any other effect of the call, and no other
condition produces a `RuntimeError`. -/
theorem wiring_runtime_error_iff (pf : Portfolio) (eh : ExecutionHandler)
    (st : MomentumStrategy) (q1 q2 q3 : List Event) (sg : SignalEvent) (o : OrderEvent)
    (m : MarketEvent) (hsub : m.symbol ∈ st.tickers) :
    (resultRuntimeError (pf.onSignalEvent q1 sg) = true ↔ pf.wired = false)
    ∧ (resultRuntimeError (eh.executeOrder q2 o) = true ↔ eh.wired = false)
    ∧ (resultRuntimeError (st.onMarketEvent q3 m) = true ↔ st.wired = false) := by
  refine ⟨?_, ?_, ?_⟩
  · cases hw : pf.wired <;> simp [Portfolio.onSignalEvent, hw, resultRuntimeError]
  · cases hw : eh.wired
    · simp [ExecutionHandler.executeOrder, hw, resultRuntimeError]
    · unfold ExecutionHandler.executeOrder
      rw [hw]
      rcases hg : eh.market_history.getLast? with _ | lastM <;>
        simp [resultRuntimeError]
  · cases hw : st.wired
    · simp [MomentumStrategy.onMarketEvent, MomentumStrategy.onMarketEventT, hw,
        resultRuntimeError]
    · simp only [MomentumStrategy.onMarketEvent, MomentumStrategy.onMarketEventT, hw]
      rcases hgen : st.generateSignal m with er | p
      · have hkind : ∀ msg, er ≠ .runtimeError msg := by
          intro msg hmsg
          exact generateSignal_no_runtime st m msg (hmsg ▸ hgen)
        simp only [hsub, if_pos, if_true]
        rw [if_neg (by simp)]
        cases er <;> simp [resultRuntimeError]
        exact (hkind _ rfl).elim
      · obtain ⟨pa, pb⟩ := p
        simp only [hsub, if_pos, if_true]
        rw [if_neg (by simp)]
        simp [resultRuntimeError]

/-- Witness for C8: an unattached portfolio's `on_signal_event` raises
`RuntimeError`. -/
theorem wiring_runtime_error_iff_witness :
    resultRuntimeError (Portfolio.onSignalEvent (mkPortfolio 0) [] ⟨"A", 1⟩) = true :=
  ((wiring_runtime_error_iff (mkPortfolio 0) mkExecutionHandler (mkMomentum ["A"] 2 1)
      [] [] [] ⟨"A", 1⟩ ⟨"A", OrderType.market, 1⟩ ⟨"A", 1, 10, 10⟩
      (by with_unfolding_all decide)).1).mpr rfl

/-- Every fill emitted by the execution handler is emitted at a market
operation strictly after the originating order, with
`fill_cost = quantity * open` of that resolving market event. -/
theorem ehRun_emission_sound (ops : List ExOp) (s : EHT) (i0 : ℕ) (s2 : EHT)
    (em : List Emit)
    (hrun : ehRun s i0 ops = .ok (s2, em))
    (hpend : ∀ p ∈ s.pending, p.1 < i0) :
    ∀ x ∈ em, i0 ≤ x.mi ∧ x.oi < x.mi ∧
      ∃ mev : MarketEvent, ops.get? (x.mi - i0) = some (.market mev) ∧
        x.ev.fill_cost = (x.ev.quantity : ℚ) * mev.openPrice := by
  induction ops generalizing s i0 em with
  | nil =>
      unfold ehRun at hrun
      injection hrun with h1
      injection h1 with h2 h3
      subst h3
      simp
  | cons op rest ih =>
      cases op with
      | market mo =>
          unfold ehRun at hrun
          rcases hgl : s.pending.getLast? with _ | p <;> rw [hgl] at hrun <;> dsimp only at hrun
          · rcases hrec : ehRun { hist := pushBounded 10 s.hist mo, pending := s.pending }
                (i0 + 1) rest with er | pr <;> rw [hrec] at hrun
            · exact absurd hrun (by simp)
            · obtain ⟨s3, em3⟩ := pr
              injection hrun with h1
              injection h1 with h2 h3
              subst h2
              subst h3
              intro x hx
              have hx3 := ih { hist := pushBounded 10 s.hist mo, pending := s.pending }
                (i0 + 1) em3 hrec (fun p hp => Nat.lt_succ_of_lt (hpend p hp)) x hx
              obtain ⟨hge, hlt, mev, hget, hcost⟩ := hx3
              refine ⟨by omega, hlt, mev, ?_, hcost⟩
              have hshift : x.mi - i0 = (x.mi - (i0 + 1)) + 1 := by omega
              rw [hshift, List.get?_cons_succ]
              exact hget
          · obtain ⟨poi, pf⟩ := p
            rcases hrec : ehRun { hist := pushBounded 10 s.hist mo, pending := s.pending.dropLast }
                (i0 + 1) rest with er | pr <;> rw [hrec] at hrun
            · exact absurd hrun (by simp)
            · obtain ⟨s3, em3⟩ := pr
              injection hrun with h1
              injection h1 with h2 h3
              subst h2
              subst h3
              intro x hx
              rcases List.mem_cons.mp hx with hx0 | hxrest
              · subst hx0
                refine ⟨le_refl _, ?_, mo, by simp, rfl⟩
                exact hpend (poi, pf) (List.mem_of_getLast?_eq_some hgl)
              · have hx3 := ih { hist := pushBounded 10 s.hist mo, pending := s.pending.dropLast }
                  (i0 + 1) em3 hrec
                  (fun q hq => Nat.lt_succ_of_lt (hpend q (List.dropLast_subset _ hq))) x hxrest
                obtain ⟨hge, hlt, mev, hget, hcost⟩ := hx3
                refine ⟨by omega, hlt, mev, ?_, hcost⟩
                have hshift : x.mi - i0 = (x.mi - (i0 + 1)) + 1 := by omega
                rw [hshift, List.get?_cons_succ]
                exact hget
      | order o =>
          unfold ehRun at hrun
          rcases hgl : s.hist.getLast? with _ | lastM <;> rw [hgl] at hrun <;> dsimp only at hrun
          · exact absurd hrun (by simp)
          · rcases hrec : ehRun
                { hist := s.hist, pending := s.pending ++
                    [(i0, ⟨o.symbol, o.quantity, (o.quantity : ℚ) * lastM.openPrice, 0⟩)] }
                (i0 + 1) rest with er | pr <;> rw [hrec] at hrun
            · exact absurd hrun (by simp)
            · obtain ⟨s3, em3⟩ := pr
              injection hrun with h1
              injection h1 with h2 h3
              subst h2
              subst h3
              intro x hx
              have hpend2 : ∀ q ∈ s.pending ++
                  [(i0, (⟨o.symbol, o.quantity, (o.quantity : ℚ) * lastM.openPrice, 0⟩ : FillEvent))],
                  q.1 < i0 + 1 := by
                intro q hq
                rcases List.mem_append.mp hq with hq1 | hq2
                · exact Nat.lt_succ_of_lt (hpend q hq1)
                · simp only [List.mem_singleton] at hq2
                  subst hq2
                  exact Nat.lt_succ_self i0
              have hx3 := ih _ (i0 + 1) em3 hrec hpend2 x hx
              obtain ⟨hge, hlt, mev, hget, hcost⟩ := hx3
              refine ⟨by omega, hlt, mev, ?_, hcost⟩
              have hshift : x.mi - i0 = (x.mi - (i0 + 1)) + 1 := by omega
              rw [hshift, List.get?_cons_succ]
              exact hget

/-- C2 counterexample: with two orders pending together (positions 1 and 2 of
`c2ops`), the LIFO pop resolves the later order at the next market event and
the earlier order only at the one after.  The order at position 1 (quantity
5) is claimed to fill at the immediately following market event (position 3,
open 100, cost 500), but the code emits its fill at position 4 with cost
5 * 200 = 1000. -/
theorem execution_lag_counterexample :
    ehRun ⟨[], []⟩ 0 c2ops =
      .ok (⟨[⟨"X", 1, 50, 50⟩, ⟨"X", 2, 100, 100⟩, ⟨"Y", 3, 200, 200⟩], []⟩,
        [⟨2, 3, ⟨"Y", 7, 700, 0⟩⟩, ⟨1, 4, ⟨"X", 5, 1000, 0⟩⟩]) ∧
    c2ops.get? 1 = some (.order ⟨"X", OrderType.market, 5⟩) ∧
    firstMarketAfter c2ops 1 = some 3 ∧
    c2ops.get? 3 = some (.market ⟨"X", 2, 100, 100⟩) ∧
    (1000 : ℚ) ≠ (5 : ℚ) * 100 := by
  with_unfolding_all decide

/-- C2 amended: every emitted fill's cost equals `quantity * open` of the
market event at which the handler resolves it, which comes strictly after
the originating order (so never a same-tick or earlier open); and when the
order is submitted with no other order pending and the next handler
operation is a market event, the fill is resolved exactly at that
immediately-following market event.  (With several orders pending the LIFO
pop can defer an earlier order past the immediately-following market event,
as the counterexample shows.) -/
theorem execution_lag_amended (ops : List ExOp) (s : EHT) (i0 : ℕ) (s2 : EHT)
    (em : List Emit)
    (hrun : ehRun s i0 ops = .ok (s2, em))
    (hpend : ∀ p ∈ s.pending, p.1 < i0) :
    (∀ x ∈ em, i0 ≤ x.mi ∧ x.oi < x.mi ∧
      ∃ mev : MarketEvent, ops.get? (x.mi - i0) = some (.market mev) ∧
        x.ev.fill_cost = (x.ev.quantity : ℚ) * mev.openPrice)
    ∧ (∀ o mo rest, s.pending = [] → ops = .order o :: .market mo :: rest →
        em.head? = some ⟨i0, i0 + 1,
          ⟨o.symbol, o.quantity, (o.quantity : ℚ) * mo.openPrice, 0⟩⟩) := by
  refine ⟨ehRun_emission_sound ops s i0 s2 em hrun hpend, ?_⟩
  intro o mo rest hp0 hops
  subst hops
  obtain ⟨hist, pending⟩ := s
  dsimp only at hp0
  subst hp0
  rcases hgl : hist.getLast? with _ | lastM <;>
    simp only [ehRun, hgl, List.nil_append, List.getLast?_singleton, List.dropLast_single]
      at hrun
  · exact absurd hrun (by simp)
  · rcases hrec : ehRun
        { hist := pushBounded 10 hist mo, pending := [] } (i0 + 1 + 1) rest
        with er | pr
    · rw [hrec] at hrun
      exact absurd hrun (by simp)
    · obtain ⟨s4, em4⟩ := pr
      rw [hrec] at hrun
      simp only [Except.ok.injEq, Prod.mk.injEq] at hrun
      rw [← hrun.2]
      rfl

/-- Witness for the amended C2: a lone order followed directly by a market
event fills at that event's open (3 units at open 40, cost 120). -/
theorem execution_lag_amended_witness :
    ([⟨7, 8, ⟨"Z", 3, 120, 0⟩⟩] : List Emit).head? = some ⟨7, 8, ⟨"Z", 3, 120, 0⟩⟩ := by
  have h := (execution_lag_amended
      [.order ⟨"Z", OrderType.market, 3⟩, .market ⟨"Z", 5, 40, 41⟩]
      ⟨[⟨"Z", 4, 30, 30⟩], []⟩ 7
      ⟨[⟨"Z", 4, 30, 30⟩, ⟨"Z", 5, 40, 41⟩], []⟩ [⟨7, 8, ⟨"Z", 3, 120, 0⟩⟩]
      (by with_unfolding_all decide) (by with_unfolding_all decide)).2
    ⟨"Z", OrderType.market, 3⟩ ⟨"Z", 5, 40, 41⟩ [] rfl rfl
  rw [h]
  with_unfolding_all decide

/-- C4 evaluation at the failing input: running the two-symbol scenario
(`j = 2`, `k = 1`, closes A: [10, 12], B: [10, 9]), the signals the engine
dispatches during tick 2 are A→-1, B→-1 (both symbols short-entered, because
the formation step runs one tick early over single-bar histories whose
returns are all 0) followed by the same-tick exit B→+1 — not the claimed
A→+1 and B→-1.  In particular no SignalEvent(A, +1) is dispatched at tick 2. -/
theorem momentum_scenario_tick2_evaluation :
    runSignalsOfTick c4run 1 =
      some [Event.signal ⟨"A", -1⟩, Event.signal ⟨"B", -1⟩, Event.signal ⟨"B", 1⟩] ∧
    Event.signal ⟨"A", 1⟩ ∉
      [Event.signal ⟨"A", -1⟩, Event.signal ⟨"B", -1⟩, Event.signal ⟨"B", 1⟩] := by
  with_unfolding_all decide

/-- Lookup after a first-occurrence update: the updated key reads through the
function, every other key is untouched. -/
theorem dlookup_dupdate {α : Type} (m : List (String × α)) (s : String) (f : α → α)
    (t : String) :
    dlookup (dupdate m s f) t = if t = s then (dlookup m s).map f else dlookup m t := by
  induction m with
  | nil => by_cases ht : t = s <;> simp [dlookup, dupdate, ht]
  | cons kv rest ih =>
      obtain ⟨key, v⟩ := kv
      by_cases hks : key = s
      · subst hks
        by_cases ht : t = key
        · subst ht
          simp [dupdate, dlookup]
        · simp [dupdate, dlookup, ht, Ne.symm ht]
      · by_cases ht : t = key
        · subst ht
          simp [dupdate, dlookup, hks]
        · simp [dupdate, dlookup, hks, Ne.symm ht, ht, ih]

/-- Popping a nonempty pending deque emits its front and keeps the tail. -/
theorem popPending_pop (st : MomentumStrategy) (sym : String) (sig : SignalEvent)
    (l : List SignalEvent)
    (h : dlookup st.pending_signals sym = some (sig :: l)) :
    popPending st sym =
      .ok ({ st with pending_signals := dupdate st.pending_signals sym (fun _ => l) },
           [Event.signal sig]) := by
  unfold popPending
  rw [h]

/-- The entry loop never touches the fields other than `pending_signals`. -/
theorem entryLoop_preserves (kk : ℕ) (sL lL : ℚ) (st : MomentumStrategy)
    (rets : List (String × ℚ)) :
    (entryLoop kk sL lL st rets).1.wired = st.wired ∧
    (entryLoop kk sL lL st rets).1.tickers = st.tickers ∧
    (entryLoop kk sL lL st rets).1.j = st.j ∧
    (entryLoop kk sL lL st rets).1.k = st.k ∧
    (entryLoop kk sL lL st rets).1.tickers_history = st.tickers_history ∧
    (entryLoop kk sL lL st rets).1.current_datetime = st.current_datetime ∧
    (entryLoop kk sL lL st rets).1.current_period = st.current_period := by
  induction rets generalizing st with
  | nil => simp [entryLoop]
  | cons tr rest ih =>
      obtain ⟨t, r⟩ := tr
      by_cases h1 : r ≤ sL
      · simpa [entryLoop, h1] using ih _
      · by_cases h2 : lL ≤ r
        · simpa [entryLoop, h1, h2] using ih _
        · simpa [entryLoop, h1, h2] using ih _

/-- The entry loop leaves the pending deque of a symbol outside the iterated
return list unchanged. -/
theorem entryLoop_pending_not_mem (kk : ℕ) (sL lL : ℚ) (st : MomentumStrategy)
    (rets : List (String × ℚ)) (t : String) (hnm : t ∉ rets.map Prod.fst) :
    dlookup (entryLoop kk sL lL st rets).1.pending_signals t =
      dlookup st.pending_signals t := by
  induction rets generalizing st with
  | nil => simp [entryLoop]
  | cons tr rest ih =>
      obtain ⟨t0, r⟩ := tr
      simp only [List.map_cons, List.mem_cons] at hnm
      push_neg at hnm
      by_cases h1 : r ≤ sL
      · rw [entryLoop]
        simp only [h1, if_true]
        rw [ih _ (hnm.2), dlookup_dupdate, if_neg hnm.1]
      · by_cases h2 : lL ≤ r
        · rw [entryLoop]
          simp only [h1, if_false, h2, if_true]
          rw [ih _ (hnm.2), dlookup_dupdate, if_neg hnm.1]
        · rw [entryLoop]
          simp only [h1, h2, if_false]
          exact ih _ (hnm.2)

/-- On a duplicate-free return list the entry loop appends at most one exit
signal to each symbol's pending deque, and (below capacity) drops nothing. -/
theorem entryLoop_pending (kk : ℕ) (sL lL : ℚ) (st : MomentumStrategy)
    (rets : List (String × ℚ)) (hnd : (rets.map Prod.fst).Nodup)
    (t : String) (q : List SignalEvent)
    (hq : dlookup st.pending_signals t = some q) (hlen : q.length < kk) :
    ∃ ex, dlookup (entryLoop kk sL lL st rets).1.pending_signals t = some (q ++ ex) ∧
      ex.length ≤ 1 := by
  induction rets generalizing st with
  | nil => exact ⟨[], by simpa [entryLoop] using hq, by simp⟩
  | cons tr rest ih =>
      obtain ⟨t0, r⟩ := tr
      simp only [List.map_cons, List.nodup_cons] at hnd
      by_cases hts : t = t0
      · subst hts
        by_cases h1 : r ≤ sL
        · refine ⟨[⟨t, 1⟩], ?_, by simp⟩
          rw [entryLoop]
          simp only [h1, if_true]
          rw [entryLoop_pending_not_mem _ _ _ _ _ _ hnd.1]
          rw [dlookup_dupdate, if_pos rfl, hq]
          simp [pushBounded]
          omega
        · by_cases h2 : lL ≤ r
          · refine ⟨[⟨t, -1⟩], ?_, by simp⟩
            rw [entryLoop]
            simp only [h1, if_false, h2, if_true]
            rw [entryLoop_pending_not_mem _ _ _ _ _ _ hnd.1]
            rw [dlookup_dupdate, if_pos rfl, hq]
            simp [pushBounded]
            omega
          · refine ⟨[], ?_, by simp⟩
            rw [entryLoop]
            simp only [h1, h2, if_false]
            rw [entryLoop_pending_not_mem _ _ _ _ _ _ hnd.1, hq]
            simp
      · by_cases h1 : r ≤ sL
        · rw [entryLoop]
          simp only [h1, if_true]
          exact ih _ hnd.2 (by rw [dlookup_dupdate, if_neg hts]; exact hq)
        · by_cases h2 : lL ≤ r
          · rw [entryLoop]
            simp only [h1, if_false, h2, if_true]
            exact ih _ hnd.2 (by rw [dlookup_dupdate, if_neg hts]; exact hq)
          · rw [entryLoop]
            simp only [h1, h2, if_false]
            exact ih _ hnd.2 hq

/-- The formation returns are keyed exactly by the iterated ticker list. -/
theorem formationReturns_keys (st : MomentumStrategy) (l : List String)
    (rets : List (String × ℚ)) (h : formationReturns st l = .ok rets) :
    rets.map Prod.fst = l := by
  induction l generalizing rets with
  | nil =>
      unfold formationReturns at h
      injection h with h1
      subst h1
      rfl
  | cons t rest ih =>
      unfold formationReturns at h
      rcases hd : dlookup st.tickers_history t with _ | hist <;> rw [hd] at h <;>
        dsimp only at h
      · exact absurd h (by simp)
      · rcases hgl : hist.getLast? with _ | lastE <;> rcases hhd : hist.head? with _ | firstE <;>
          rw [hgl, hhd] at h
        · exact absurd h (by simp)
        · exact absurd h (by simp)
        · exact absurd h (by simp)
        · dsimp only at h
          split at h
          · exact absurd h (by simp)
          · rcases hrec : formationReturns st rest with er | others <;> rw [hrec] at h
            · exact absurd h (by simp)
            · injection h with h1
              subst h1
              simp [ih others hrec]

/-- The formation step preserves every field except `pending_signals`. -/
theorem formation_preserves (st st2 : MomentumStrategy) (out : List Event)
    (h : formation st = .ok (st2, out)) :
    st2.wired = st.wired ∧ st2.tickers = st.tickers ∧ st2.j = st.j ∧ st2.k = st.k ∧
    st2.tickers_history = st.tickers_history ∧
    st2.current_datetime = st.current_datetime ∧
    st2.current_period = st.current_period := by
  unfold formation at h
  rcases hfr : formationReturns st (sortStrings st.tickers) with er | rets <;> rw [hfr] at h
  · exact absurd h (by simp)
  · injection h with h1
    have h2 : (entryLoop st.k (npPercentile (rets.map (fun tr => tr.2)) 10)
        (npPercentile (rets.map (fun tr => tr.2)) 90) st rets).1 = st2 := by
      rw [h1]
    rw [← h2]
    exact entryLoop_preserves _ _ _ st rets

/-- Under a duplicate-free ticker set the formation step appends at most one
exit signal per symbol, dropping nothing while the deque is below capacity. -/
theorem formation_pending (st st2 : MomentumStrategy) (out : List Event)
    (h : formation st = .ok (st2, out)) (hnd : st.tickers.Nodup)
    (t : String) (q : List SignalEvent)
    (hq : dlookup st.pending_signals t = some q) (hlen : q.length < st.k) :
    ∃ ex, dlookup st2.pending_signals t = some (q ++ ex) ∧ ex.length ≤ 1 := by
  unfold formation at h
  rcases hfr : formationReturns st (sortStrings st.tickers) with er | rets <;> rw [hfr] at h
  · exact absurd h (by simp)
  · injection h with h1
    have hperm : (sortStrings st.tickers).Perm st.tickers :=
      List.perm_insertionSort _ _
    have hsortnd : (sortStrings st.tickers).Nodup := hperm.nodup_iff.mpr hnd
    have hkeys := formationReturns_keys st _ rets hfr
    have h2 : (entryLoop st.k (npPercentile (rets.map (fun tr => tr.2)) 10)
        (npPercentile (rets.map (fun tr => tr.2)) 90) st rets).1 = st2 := by
      rw [h1]
    rw [← h2]
    exact entryLoop_pending _ _ _ st rets (by rw [hkeys]; exact hsortnd) t q hq hlen

/-- With all ticker histories still empty and at least one ticker, the
formation step fails (it reads `history[-1]` of an empty deque). -/
theorem formation_empty_hist_error (st : MomentumStrategy)
    (hh : ∀ t ∈ st.tickers, dlookup st.tickers_history t = some [])
    (hne : st.tickers ≠ []) :
    ∃ er, formation st = .error er := by
  have hperm : (sortStrings st.tickers).Perm st.tickers := List.perm_insertionSort _ _
  rcases hs : sortStrings st.tickers with _ | ⟨t0, srest⟩
  · have h0 := hperm.length_eq
    rw [hs] at h0
    exact absurd (List.eq_nil_of_length_eq_zero h0.symm) hne
  · have ht0 : t0 ∈ st.tickers := hperm.subset (by rw [hs]; simp)
    refine ⟨.indexError, ?_⟩
    unfold formation
    rw [hs]
    unfold formationReturns
    rw [hh t0 ht0]
    simp

/-- Analysis of step 2 of `generate_signal`: fields other than the pending
deques, the period counter and the datetime are preserved; each symbol's
pending deque grows by at most one entry (and exactly none when every
history is still empty, since a formation run would then fail). -/
theorem formationIfNew_analysis (st st2 : MomentumStrategy) (d : ℕ) (out : List Event)
    (h : formationIfNew st d = .ok (st2, out)) (hnd : st.tickers.Nodup) :
    st2.wired = st.wired ∧ st2.tickers = st.tickers ∧ st2.j = st.j ∧ st2.k = st.k ∧
    st2.tickers_history = st.tickers_history ∧
    (∀ t q, dlookup st.pending_signals t = some q → q.length < st.k →
      ∃ ex, dlookup st2.pending_signals t = some (q ++ ex) ∧ ex.length ≤ 1) ∧
    ((∀ t ∈ st.tickers, dlookup st.tickers_history t = some []) → st.tickers ≠ [] →
      st2.pending_signals = st.pending_signals) := by
  unfold formationIfNew at h
  split at h
  · injection h with h1
    injection h1 with h2 h3
    subst h2
    exact ⟨rfl, rfl, rfl, rfl, rfl, fun t q hq _ => ⟨[], by simpa using hq, by simp⟩,
      fun _ _ => rfl⟩
  · dsimp only at h
    split at h
    · have hpres := formation_preserves _ _ _ h
      have hpend := formation_pending _ _ _ h (by exact hnd)
      refine ⟨hpres.1, hpres.2.1, hpres.2.2.1, hpres.2.2.2.1, hpres.2.2.2.2.1, ?_, ?_⟩
      · intro t q hq hlen
        exact hpend t q hq hlen
      · intro hemp hne
        obtain ⟨er, herr⟩ := formation_empty_hist_error
          { st with current_period := st.current_period + 1 } hemp hne
        rw [herr] at h
        exact absurd h (by simp)
    · injection h with h1
      injection h1 with h2 h3
      subst h2
      exact ⟨rfl, rfl, rfl, rfl, rfl, fun t q hq _ => ⟨[], by simpa using hq, by simp⟩,
        fun _ _ => rfl⟩

/-- Analysis of step 3 of `generate_signal`: the history append touches only
`tickers_history` (key set preserved) and sets `current_datetime`. -/
theorem recordHistory_analysis (st st3 : MomentumStrategy) (e : MarketEvent)
    (h : recordHistory st e = .ok st3) :
    st3.wired = st.wired ∧ st3.tickers = st.tickers ∧ st3.j = st.j ∧ st3.k = st.k ∧
    st3.pending_signals = st.pending_signals ∧ st3.current_datetime = some e.dt ∧
    (∀ t, (dlookup st3.tickers_history t).isSome = (dlookup st.tickers_history t).isSome) := by
  unfold recordHistory at h
  rcases hd : dlookup st.tickers_history e.symbol with _ | hist <;> rw [hd] at h
  · exact absurd h (by simp)
  · injection h with h1
    subst h1
    refine ⟨rfl, rfl, rfl, rfl, rfl, rfl, ?_⟩
    intro t
    dsimp only
    rw [dlookup_dupdate]
    by_cases ht : t = e.symbol
    · rw [if_pos ht, ht, hd]
      simp
    · rw [if_neg ht]

/-- A call for a symbol whose datetime has already been recorded (every call
of a tick after the tick's first): it pops and emits the symbol's front
pending signal and appends the event to the symbol's history — nothing else. -/
theorem call_same_datetime (st st' : MomentumStrategy) (e : MarketEvent) (out : List Event)
    (hcall : st.onMarketEventT e = .ok (st', out))
    (hw : st.wired = true) (hmem : e.symbol ∈ st.tickers)
    (sig : SignalEvent) (l : List SignalEvent)
    (hpe : dlookup st.pending_signals e.symbol = some (sig :: l))
    (hdt : st.current_datetime = some e.dt) :
    out = [Event.signal sig] ∧ st'.wired = true ∧ st'.tickers = st.tickers ∧
    st'.j = st.j ∧ st'.k = st.k ∧
    st'.current_datetime = some e.dt ∧
    (∀ t, (dlookup st'.tickers_history t).isSome = (dlookup st.tickers_history t).isSome) ∧
    (∀ t, dlookup st'.pending_signals t =
      if t = e.symbol then some l else dlookup st.pending_signals t) := by
  unfold MomentumStrategy.onMarketEventT at hcall
  rw [hw, if_neg (by simp), if_pos hmem] at hcall
  unfold MomentumStrategy.generateSignal at hcall
  rw [popPending_pop st e.symbol sig l hpe] at hcall
  dsimp only at hcall
  set stA := { st with pending_signals := dupdate st.pending_signals e.symbol (fun _ => l) }
    with hstA
  have hdtA : stA.current_datetime = some e.dt := hdt
  have hfin : formationIfNew stA e.dt = .ok (stA, []) := by
    unfold formationIfNew
    rw [if_pos hdtA]
  rw [hfin] at hcall
  dsimp only at hcall
  rcases hr : recordHistory stA e with er | st3 <;> rw [hr] at hcall
  · exact absurd hcall (by simp)
  · injection hcall with h1
    injection h1 with h2 h3
    subst h2
    have ha := recordHistory_analysis stA _ e hr
    refine ⟨by rw [← h3]; rfl, by rw [ha.1]; exact hw, by rw [ha.2.1],
      by rw [ha.2.2.1], by rw [ha.2.2.2.1], ha.2.2.2.2.2.1, ?_, ?_⟩
    · intro t
      rw [ha.2.2.2.2.2.2 t]
    · intro t
      rw [ha.2.2.2.2.1]
      show dlookup (dupdate st.pending_signals e.symbol (fun _ => l)) t = _
      rw [dlookup_dupdate]
      by_cases ht : t = e.symbol
      · rw [if_pos ht, if_pos ht, hpe]
        rfl
      · rw [if_neg ht, if_neg ht]

/-- The first call of a tick under the first-`k`-ticks invariant: the call
emits the placeholder signal first, pops it from the symbol's pending deque,
and (through a possible formation run) every tracked symbol's pending deque
grows by at most one trailing entry — by none at all on the very first tick,
when a formation run would fail on the empty histories. -/
theorem call_first_of_tick (st st' : MomentumStrategy) (e : MarketEvent) (out : List Event)
    (k i : ℕ)
    (hcall : st.onMarketEventT e = .ok (st', out))
    (hw : st.wired = true) (hmem : e.symbol ∈ st.tickers) (hnd : st.tickers.Nodup)
    (hk : st.k = k) (hik : i < k)
    (hpend : ∀ t ∈ st.tickers, ∃ tail, dlookup st.pending_signals t =
      some (List.replicate (k - i) (⟨"", 0⟩ : SignalEvent) ++ tail) ∧ tail.length ≤ i - 1)
    (hhist0 : i = 0 → ∀ t ∈ st.tickers, dlookup st.tickers_history t = some []) :
    out.head? = some (Event.signal ⟨"", 0⟩) ∧
    st'.wired = true ∧ st'.tickers = st.tickers ∧ st'.k = k ∧
    st'.current_datetime = some e.dt ∧
    (∀ t, (dlookup st'.tickers_history t).isSome = (dlookup st.tickers_history t).isSome) ∧
    (∀ t ∈ st.tickers, ∃ tail2,
      dlookup st'.pending_signals t =
        some ((if t = e.symbol then List.replicate (k - i - 1) (⟨"", 0⟩ : SignalEvent)
               else List.replicate (k - i) (⟨"", 0⟩ : SignalEvent)) ++ tail2) ∧
      tail2.length ≤ i) := by
  unfold MomentumStrategy.onMarketEventT at hcall
  rw [hw, if_neg (by simp), if_pos hmem] at hcall
  unfold MomentumStrategy.generateSignal at hcall
  obtain ⟨tailE, hpeE, hlenE⟩ := hpend e.symbol hmem
  have hsucc : k - i = (k - i - 1) + 1 := by omega
  rw [hsucc, List.replicate_succ, List.cons_append] at hpeE
  rw [popPending_pop st e.symbol ⟨"", 0⟩ _ hpeE] at hcall
  dsimp only at hcall
  set stA := { st with pending_signals := dupdate st.pending_signals e.symbol (fun _ => List.replicate (k - i - 1) (⟨"", 0⟩ : SignalEvent) ++ tailE) } with hstA
  rcases hfn : formationIfNew stA e.dt with er | p2 <;> rw [hfn] at hcall
  · exact absurd hcall (by simp)
  · obtain ⟨st2, out2⟩ := p2
    dsimp only at hcall
    rcases hr : recordHistory st2 e with er | st3 <;> rw [hr] at hcall
    · exact absurd hcall (by simp)
    · injection hcall with h1
      injection h1 with h2 h3
      subst h2
      have hfa := formationIfNew_analysis stA st2 e.dt out2 hfn hnd
      have hra := recordHistory_analysis st2 _ e hr
      have hpendA : ∀ t, dlookup stA.pending_signals t =
          if t = e.symbol
          then some (List.replicate (k - i - 1) (⟨"", 0⟩ : SignalEvent) ++ tailE)
          else dlookup st.pending_signals t := by
        intro t
        show dlookup (dupdate st.pending_signals e.symbol _) t = _
        rw [dlookup_dupdate]
        by_cases ht : t = e.symbol
        · rw [if_pos ht, if_pos ht]
          rw [hpeE]
          rfl
        · rw [if_neg ht, if_neg ht]
      refine ⟨by rw [← h3]; rfl, by rw [hra.1, hfa.1]; exact hw,
        by rw [hra.2.1, hfa.2.1], by rw [hra.2.2.2.1, hfa.2.2.2.1]; exact hk,
        hra.2.2.2.2.2.1, ?_, ?_⟩
      · intro t
        rw [hra.2.2.2.2.2.2 t, hfa.2.2.2.2.1]
      · intro t hmt
        rcases Nat.eq_zero_or_pos i with hi0 | hipos
        · subst hi0
          have hpfix := hfa.2.2.2.2.2.2
            (by intro u hu; exact hhist0 rfl u hu) (List.ne_nil_of_mem hmem)
          obtain ⟨tail, hlt, hll⟩ := hpend t hmt
          have htail : tail = [] := List.eq_nil_of_length_eq_zero (by omega)
          subst htail
          have htE : tailE = [] := List.eq_nil_of_length_eq_zero (by omega)
          subst htE
          refine ⟨[], ?_, by simp⟩
          rw [hra.2.2.2.2.1, hpfix, hpendA t]
          by_cases ht : t = e.symbol
          · rw [if_pos ht, if_pos ht]
          · rw [if_neg ht, if_neg ht, hlt]
        · obtain ⟨tail, hlt, hll⟩ := hpend t hmt
          by_cases ht : t = e.symbol
          · have hq : dlookup stA.pending_signals t =
                some (List.replicate (k - i - 1) (⟨"", 0⟩ : SignalEvent) ++ tailE) := by
              rw [hpendA t, if_pos ht]
            have hlen2 : (List.replicate (k - i - 1) (⟨"", 0⟩ : SignalEvent) ++ tailE).length
                < stA.k := by
              have : stA.k = k := hk
              rw [this]
              simp only [List.length_append, List.length_replicate]
              omega
            obtain ⟨ex, hex, hexlen⟩ := hfa.2.2.2.2.2.1 t _ hq hlen2
            refine ⟨tailE ++ ex, ?_, by simp only [List.length_append]; omega⟩
            rw [hra.2.2.2.2.1, hex, if_pos ht]
            rw [List.append_assoc]
          · have hq : dlookup stA.pending_signals t =
                some (List.replicate (k - i) (⟨"", 0⟩ : SignalEvent) ++ tail) := by
              rw [hpendA t, if_neg ht, hlt]
            have hlen2 : (List.replicate (k - i) (⟨"", 0⟩ : SignalEvent) ++ tail).length
                < stA.k := by
              have : stA.k = k := hk
              rw [this]
              simp only [List.length_append, List.length_replicate]
              omega
            obtain ⟨ex, hex, hexlen⟩ := hfa.2.2.2.2.2.1 t _ hq hlen2
            refine ⟨tail ++ ex, ?_, by simp only [List.length_append]; omega⟩
            rw [hra.2.2.2.2.1, hex, if_neg ht]
            rw [List.append_assoc]

/-- Folding the remaining calls of a tick (the tick's datetime already
recorded): each call emits exactly its symbol's front pending placeholder,
each listed symbol's pending deque loses its front, and no other pending
deque changes. -/
theorem stratCalls_rest (S : List String) (d : ℕ) (po pc : String → ℚ)
    (st st1 : MomentumStrategy) (outs : List (List Event))
    (hcall : stratCalls st (batchEvents S d po pc) = .ok (st1, outs))
    (hw : st.wired = true) (hdt : st.current_datetime = some d)
    (hsub : ∀ s ∈ S, s ∈ st.tickers) (hndS : S.Nodup)
    (hpend : ∀ s ∈ S, ∃ l, dlookup st.pending_signals s =
      some ((⟨"", 0⟩ : SignalEvent) :: l)) :
    (∀ out ∈ outs, out = [Event.signal ⟨"", 0⟩]) ∧
    st1.wired = true ∧ st1.tickers = st.tickers ∧ st1.k = st.k ∧
    st1.current_datetime = some d ∧
    (∀ t, (dlookup st1.tickers_history t).isSome = (dlookup st.tickers_history t).isSome) ∧
    (∀ t, t ∉ S → dlookup st1.pending_signals t = dlookup st.pending_signals t) ∧
    (∀ s ∈ S, ∀ l, dlookup st.pending_signals s = some ((⟨"", 0⟩ : SignalEvent) :: l) →
      dlookup st1.pending_signals s = some l) := by
  induction S generalizing st outs with
  | nil =>
      unfold batchEvents stratCalls at hcall
      injection hcall with h1
      injection h1 with h2 h3
      subst h2
      subst h3
      exact ⟨by simp, hw, rfl, rfl, hdt, fun t => rfl, fun t _ => rfl, by simp⟩
  | cons s S' ih =>
      have hbe : batchEvents (s :: S') d po pc =
          (⟨s, d, po s, pc s⟩ : MarketEvent) :: batchEvents S' d po pc := rfl
      rw [hbe] at hcall
      unfold stratCalls at hcall
      rcases hc1 : st.onMarketEventT ⟨s, d, po s, pc s⟩ with er | pB <;> rw [hc1] at hcall
      · exact absurd hcall (by simp)
      · obtain ⟨stB, out0⟩ := pB
        dsimp only at hcall
        rcases hc2 : stratCalls stB (batchEvents S' d po pc) with er | pC <;> rw [hc2] at hcall
        · exact absurd hcall (by simp)
        · obtain ⟨stC, outs'⟩ := pC
          injection hcall with h1
          injection h1 with h2 h3
          subst h2
          subst h3
          obtain ⟨l0, hl0⟩ := hpend s (by simp)
          have hcall1 := call_same_datetime st stB ⟨s, d, po s, pc s⟩ out0 hc1 hw
            (hsub s (by simp)) ⟨"", 0⟩ l0 hl0 hdt
          obtain ⟨a1, a2, a3, a4, a5, a6, a7, a8⟩ := hcall1
          simp only [List.nodup_cons] at hndS
          have hih := ih stB outs' hc2 a2 a6
            (fun u hu => a3 ▸ hsub u (List.mem_cons_of_mem s hu)) hndS.2
            (fun u hu => by
              rw [a8 u, if_neg (fun (he : u = s) => hndS.1 (he ▸ hu))]
              exact hpend u (List.mem_cons_of_mem s hu))
          obtain ⟨b1, b2, b3, b4, b5, b6, b7, b8⟩ := hih
          refine ⟨?_, b2, b3.trans a3, b4.trans a5, b5, fun t => (b6 t).trans (a7 t), ?_, ?_⟩
          · intro out hout
            rcases List.mem_cons.mp hout with h0 | hrest
            · rw [h0, a1]
            · exact b1 out hrest
          · intro t ht
            simp only [List.mem_cons] at ht
            push_neg at ht
            rw [b7 t ht.2, a8 t, if_neg ht.1]
          · intro u hu l hl
            rcases List.mem_cons.mp hu with h0 | hrest
            · subst h0
              rw [hl0] at hl
              injection hl with hl2
              injection hl2 with hl3 hl4
              rw [b7 u hndS.1, a8 u, if_pos rfl, hl4]
            · rw [b8 u hrest l]
              rw [a8 u, if_neg (fun (he : u = s) => hndS.1 (he ▸ hrest)), hl]

/-- One full tick under the first-`k`-ticks invariant: every call of the tick
appends its symbol's placeholder signal first, and afterwards every pending
deque consists of one placeholder fewer plus a bounded tail. -/
theorem stratCalls_batch (tickers : List String) (k i d : ℕ) (po pc : String → ℚ)
    (st st1 : MomentumStrategy) (outs : List (List Event))
    (hcall : stratCalls st (batchEvents tickers d po pc) = .ok (st1, outs))
    (hw : st.wired = true) (htk : st.tickers = tickers) (hk : st.k = k)
    (hnd : tickers.Nodup) (hik : i < k)
    (hpend : ∀ t ∈ tickers, ∃ tail, dlookup st.pending_signals t =
      some (List.replicate (k - i) (⟨"", 0⟩ : SignalEvent) ++ tail) ∧ tail.length ≤ i - 1)
    (hhist0 : i = 0 → ∀ t ∈ tickers, dlookup st.tickers_history t = some []) :
    (∀ out ∈ outs, out.head? = some (Event.signal ⟨"", 0⟩)) ∧
    st1.wired = true ∧ st1.tickers = tickers ∧ st1.k = k ∧
    (∀ t ∈ tickers, ∃ tail, dlookup st1.pending_signals t =
      some (List.replicate (k - (i + 1)) (⟨"", 0⟩ : SignalEvent) ++ tail) ∧
      tail.length ≤ i) := by
  cases tickers with
  | nil =>
      unfold batchEvents stratCalls at hcall
      injection hcall with h1
      injection h1 with h2 h3
      subst h2
      subst h3
      exact ⟨by simp, hw, htk, hk, by simp⟩
  | cons t0 T =>
      have hbe : batchEvents (t0 :: T) d po pc =
          (⟨t0, d, po t0, pc t0⟩ : MarketEvent) :: batchEvents T d po pc := rfl
      rw [hbe] at hcall
      unfold stratCalls at hcall
      rcases hc1 : st.onMarketEventT ⟨t0, d, po t0, pc t0⟩ with er | pB <;> rw [hc1] at hcall
      · exact absurd hcall (by simp)
      · obtain ⟨stB, out0⟩ := pB
        dsimp only at hcall
        rcases hc2 : stratCalls stB (batchEvents T d po pc) with er | pC <;> rw [hc2] at hcall
        · exact absurd hcall (by simp)
        · obtain ⟨stC, outs'⟩ := pC
          injection hcall with h1
          injection h1 with h2 h3
          subst h2
          subst h3
          simp only [List.nodup_cons] at hnd
          have hfirst := call_first_of_tick st stB ⟨t0, d, po t0, pc t0⟩ out0 k i hc1 hw
            (by rw [htk]; simp) (by rw [htk]; exact List.nodup_cons.mpr hnd) hk hik
            (by rw [htk]; exact hpend) (fun h0 => by rw [htk]; exact hhist0 h0)
          obtain ⟨c1, c2, c3, c4, c5, c6, c7⟩ := hfirst
          have hsucc : k - i = (k - i - 1) + 1 := by omega
          have hrep : List.replicate (k - i) (⟨"", 0⟩ : SignalEvent) =
              (⟨"", 0⟩ : SignalEvent) :: List.replicate (k - i - 1) (⟨"", 0⟩ : SignalEvent) := by
            conv_lhs => rw [hsucc, List.replicate_succ]
          have hrest := stratCalls_rest T d po pc stB stC outs' hc2 c2 c5
            (fun u hu => by rw [c3, htk]; exact List.mem_cons_of_mem t0 hu) hnd.2
            (fun u hu => by
              obtain ⟨tail2, hlt, hll⟩ := c7 u (by rw [htk]; exact List.mem_cons_of_mem t0 hu)
              rw [if_neg (fun (he : u = t0) => hnd.1 (he ▸ hu))] at hlt
              refine ⟨List.replicate (k - i - 1) (⟨"", 0⟩ : SignalEvent) ++ tail2, ?_⟩
              rw [hlt, hrep, List.cons_append])
          obtain ⟨b1, b2, b3, b4, b5, b6, b7, b8⟩ := hrest
          refine ⟨?_, b2, by rw [b3, c3, htk], by rw [b4, c4], ?_⟩
          · intro out hout
            rcases List.mem_cons.mp hout with h0 | hr
            · rw [h0]
              exact c1
            · rw [b1 out hr]
              rfl
          · intro t hmt
            rcases List.mem_cons.mp hmt with h0 | hr
            · subst h0
              obtain ⟨tail2, hlt, hll⟩ := c7 t (by rw [htk]; simp)
              rw [if_pos rfl] at hlt
              refine ⟨tail2, ?_, hll⟩
              rw [b7 t hnd.1, hlt]
              rfl
            · obtain ⟨tail2, hlt, hll⟩ := c7 t (by rw [htk]; exact List.mem_cons_of_mem t0 hr)
              rw [if_neg (fun (he : t = t0) => hnd.1 (he ▸ hr))] at hlt
              refine ⟨tail2, ?_, hll⟩
              rw [hrep, List.cons_append] at hlt
              have := b8 t hr _ hlt
              rw [this]
              rfl

/-- Lookup in an association list built by mapping a key list. -/
theorem dlookup_map_self {α : Type} (l : List String) (g : String → α) (t : String)
    (ht : t ∈ l) :
    dlookup (l.map (fun u => (u, g u))) t = some (g t) := by
  induction l with
  | nil => exact absurd ht (by simp)
  | cons u l' ih =>
      rcases List.mem_cons.mp ht with h0 | hr
      · subst h0
        simp [dlookup]
      · by_cases hu : u = t
        · subst hu
          simp [dlookup]
        · simp only [List.map_cons, dlookup, if_neg hu]
          exact ih hr

/-- Run induction: for every tick processed while the invariant counter is
still below `k`, every call of that tick emits a placeholder first. -/
theorem stratRun_aux (tickers : List String) (k : ℕ) (hnd : tickers.Nodup)
    (batches : List (ℕ × (String → ℚ) × (String → ℚ)))
    (st st2 : MomentumStrategy) (i : ℕ) (traces : List (List (List Event)))
    (hw : st.wired = true) (htk : st.tickers = tickers) (hk : st.k = k)
    (hpend : ∀ t ∈ tickers, ∃ tail, dlookup st.pending_signals t =
      some (List.replicate (k - i) (⟨"", 0⟩ : SignalEvent) ++ tail) ∧ tail.length ≤ i - 1)
    (hhist0 : i = 0 → ∀ t ∈ tickers, dlookup st.tickers_history t = some [])
    (hrun : stratRun tickers st batches = .ok (st2, traces)) :
    ∀ b, i + b < k → ∀ callOut ∈ traces.getD b [], callOut.head? =
      some (Event.signal ⟨"", 0⟩) := by
  induction batches generalizing st i traces with
  | nil =>
      unfold stratRun at hrun
      injection hrun with h1
      injection h1 with h2 h3
      subst h3
      simp
  | cons batch rest ih =>
      obtain ⟨d, po, pc⟩ := batch
      by_cases hik : i < k
      · unfold stratRun at hrun
        rcases hc1 : stratCalls st (batchEvents tickers d po pc) with er | pB <;>
          rw [hc1] at hrun
        · exact absurd hrun (by simp)
        · obtain ⟨stB, outs⟩ := pB
          dsimp only at hrun
          rcases hc2 : stratRun tickers stB rest with er | pC <;> rw [hc2] at hrun
          · exact absurd hrun (by simp)
          · obtain ⟨stC, traces'⟩ := pC
            injection hrun with h1
            injection h1 with h2 h3
            subst h2
            subst h3
            have hbatch := stratCalls_batch tickers k i d po pc st stB outs hc1
              hw htk hk hnd hik hpend hhist0
            obtain ⟨d1, d2, d3, d4, d5⟩ := hbatch
            intro b hb callOut hmem
            cases b with
            | zero =>
                exact d1 callOut (by simpa using hmem)
            | succ b' =>
                refine ih stB (i + 1) traces' d2 d3 d4 d5
                  (fun h0 => absurd h0 (Nat.succ_ne_zero i)) hc2 b' (by omega) callOut ?_
                simpa using hmem
      · intro b hb
        exact absurd hb (by omega)

/-- C9: the momentum strategy's per-symbol pending-exit deques are
initialized holding `k` placeholder `SignalEvent("", 0)` entries, and on each
of the first `k` ticks of any feed, every call of the tick (one per tracked
symbol) appends a zero-strength empty-symbol signal to the shared queue
before anything else it emits that call. -/
theorem momentum_placeholder_first_k (tickers : List String) (j k : ℕ)
    (batches : List (ℕ × (String → ℚ) × (String → ℚ)))
    (st2 : MomentumStrategy) (traces : List (List (List Event)))
    (hnodup : tickers.Nodup)
    (hrun : stratRun tickers { mkMomentum tickers j k with wired := true } batches =
      .ok (st2, traces)) :
    (∀ t ∈ tickers, dlookup (mkMomentum tickers j k).pending_signals t =
      some (List.replicate k (⟨"", 0⟩ : SignalEvent)))
    ∧ ∀ i, i < k → ∀ callOut ∈ traces.getD i [], callOut.head? =
      some (Event.signal ⟨"", 0⟩) := by
  constructor
  · intro t ht
    exact dlookup_map_self tickers _ t ht
  · intro i hik callOut hmem
    refine stratRun_aux tickers k hnodup batches _ st2 0 traces rfl rfl rfl
      ?_ ?_ hrun i (by omega) callOut hmem
    · intro t ht
      refine ⟨[], ?_, by simp⟩
      show dlookup (tickers.map (fun u => (u, List.replicate k (⟨"", 0⟩ : SignalEvent)))) t = _
      rw [dlookup_map_self tickers _ t ht]
      simp
    · intro _ t ht
      exact dlookup_map_self tickers _ t ht

/-- Witness for C9: two tickers, `j = 2`, `k = 1`, one tick of data; both
calls of tick 1 emit exactly the placeholder signal. -/
theorem momentum_placeholder_first_k_witness :
    (∀ t ∈ tickersAB, dlookup (mkMomentum tickersAB 2 1).pending_signals t =
      some (List.replicate 1 (⟨"", 0⟩ : SignalEvent)))
    ∧ ∀ i, i < 1 → ∀ callOut ∈
        ([[[Event.signal ⟨"", 0⟩], [Event.signal ⟨"", 0⟩]]] :
          List (List (List Event))).getD i [],
        callOut.head? = some (Event.signal ⟨"", 0⟩) :=
  momentum_placeholder_first_k tickersAB 2 1 c9wBatches
    { wired := true, tickers := tickersAB, j := 2, k := 1,
      tickers_history := [("A", [⟨"A", 1, 10, 10⟩]), ("B", [⟨"B", 1, 10, 10⟩])],
      current_datetime := some 1, current_period := 1,
      pending_signals := [("A", []), ("B", [])] }
    [[[Event.signal ⟨"", 0⟩], [Event.signal ⟨"", 0⟩]]]
    (by with_unfolding_all decide)
    (by with_unfolding_all decide)
